import Mathlib

/-!
Shallow embedding of the Simple Big 2 card game.

The definitions below translate `game.py` (Card, Deck, Player, SimpleBig2)
and the card-code parser of `app.py` into Lean.  Python's in-place mutation
is rendered as explicit state passing; `raise` becomes `Except.error`;
`None` becomes `Option.none`.  The random permutation produced by
`random.shuffle` is passed in explicitly as an argument where it is used.
-/

/-- Python: RANKS = "3 4 5 6 7 8 9 10 J Q K A 2".split() -/
def RANKS : List String := ["3", "4", "5", "6", "7", "8", "9", "10", "J", "Q", "K", "A", "2"]

/-- Python: SUITS = "♢ ♣ ♡ ♠".split() -/
def SUITS : List String := ["♢", "♣", "♡", "♠"]

/-- Python dataclass Card with fields rank and suit.  The derived field
sort_index is a pure function of rank and suit (computed once in
__post_init__ and never mutated), so it is modelled as a function below. -/
structure Card where
  rank : String
  suit : String
deriving DecidableEq, Repr

/-- Python: self.sort_index = RANKS.index(self.rank) * len(SUITS) + SUITS.index(self.suit) -/
def Card.sort_index (c : Card) : Nat :=
  RANKS.indexOf c.rank * SUITS.length + SUITS.indexOf c.suit

/-- Python dataclass(order=True) lt: lexicographic comparison of the tuple
(sort_index, rank, suit). -/
def cardLt (a b : Card) : Prop :=
  a.sort_index < b.sort_index ∨
    (a.sort_index = b.sort_index ∧
      (a.rank < b.rank ∨ (a.rank = b.rank ∧ a.suit < b.suit)))

instance : DecidableRel cardLt := fun a b => by
  unfold cardLt
  infer_instance

/-- Python list.sort uses only lt and is stable; a stable sort ordered by lt
is an insertion sort along the reflexive relation (not b lt a). -/
def cardLe (a b : Card) : Prop := ¬ cardLt b a

instance : DecidableRel cardLe := fun _ _ => instDecidableNot

/-- Key embedding of the tuple (sort_index, rank, suit) into a lexicographic
product, used to transfer linear-order facts to cardLt and cardLe. -/
def cardKey (c : Card) : Lex (Nat × Lex (String × String)) :=
  toLex (c.sort_index, toLex (c.rank, c.suit))

theorem cardLt_iff_key {a b : Card} : cardLt a b ↔ cardKey a < cardKey b := by
  simp [cardLt, cardKey, Prod.Lex.lt_iff]

theorem cardLe_iff_key {a b : Card} : cardLe a b ↔ cardKey a ≤ cardKey b := by
  rw [cardLe, cardLt_iff_key, not_lt]

instance : IsTotal Card cardLe :=
  ⟨fun a b => by
    rw [cardLe_iff_key, cardLe_iff_key]
    exact le_total (cardKey a) (cardKey b)⟩

instance : IsTrans Card cardLe :=
  ⟨fun a b c hab hbc => by
    rw [cardLe_iff_key] at *
    exact le_trans hab hbc⟩

theorem cardLe_sort_index {a b : Card} (h : cardLe a b) :
    a.sort_index ≤ b.sort_index := by
  by_contra hlt
  exact h (Or.inl (by omega))

/-- Python: f-string rank followed by suit (Card.__str__). -/
def card_str (c : Card) : String := c.rank ++ c.suit

/-- Python Card construction validates rank and suit via RANKS.index /
SUITS.index in __post_init__, raising ValueError when either is unknown. -/
def mk_card (rank suit : String) : Except String Card :=
  if rank ∈ RANKS ∧ suit ∈ SUITS then .ok ⟨rank, suit⟩
  else .error "ValueError: not in list"

/-- Python app.py play_card: rank, suit = card_str[:-1], card_str[-1], then
Card(rank, suit). -/
def parse_card (s : String) : Except String Card :=
  mk_card (s.dropRight 1) (s.takeRight 1)

/-- Python Deck: an ordered mutable list of cards. -/
structure Deck where
  cards : List Card
deriving DecidableEq, Repr

/-- Python Deck.__init__ default: [Card(r, s) for r in RANKS for s in SUITS]. -/
def fullDeckCards : List Card := RANKS.flatMap (fun r => SUITS.map (fun s => Card.mk r s))

def Deck.new : Deck := ⟨fullDeckCards⟩

/-- Python Deck.count property. -/
def Deck.count (d : Deck) : Nat := d.cards.length

/-- Python Deck.draw: raises ValueError when number exceeds the deck size,
otherwise removes and returns the first n cards. -/
def Deck.draw (d : Deck) (number : Nat) : Except String (List Card × Deck) :=
  if number > d.cards.length then
    .error "Cannot draw more cards than are in the deck"
  else
    .ok (d.cards.take number, ⟨d.cards.drop number⟩)

/-- Python sorted(self.cards, key=lambda c: c.sort_index): a stable ascending
sort by sort_index alone. -/
def sortBySortIndex (cs : List Card) : List Card :=
  List.insertionSort (fun a b => a.sort_index ≤ b.sort_index) cs

/-- Python Deck.get_smallest_card: the first card in sort_index order whose
sort_index is strictly greater than card_index (None when there is none). -/
def Deck.get_smallest_card (d : Deck) (card_index : Nat) : Option Card :=
  (sortBySortIndex d.cards).find? (fun c => card_index < c.sort_index)

/-- Python Deck.order: in-place sort by the dataclass ordering. -/
def Deck.order (d : Deck) : Deck := ⟨List.insertionSort cardLe d.cards⟩

/-- Python Deck.play: raises ValueError when the card is absent, otherwise
removes (the first occurrence of) the card and returns it. -/
def Deck.play (d : Deck) (card : Card) : Except String (Card × Deck) :=
  if card ∈ d.cards then .ok (card, ⟨d.cards.erase card⟩)
  else .error "card not found in the deck."

/-- Python Player: a name and an optional hand. -/
structure Player where
  name : String
  deck : Option Deck
deriving DecidableEq, Repr

/-- Python Player.dealt. -/
def Player.dealt (p : Player) (d : Deck) : Player := { p with deck := some d }

/-- Python Player.play: raise when no hand is assigned; threshold is 0 when
last_played_card is None, else its sort_index; look up the smallest card
strictly above the threshold, pass (None) when there is none, else remove
and return it. -/
def Player.play (p : Player) (last_played_card : Option Card) :
    Except String (Option Card × Player) :=
  match p.deck with
  | none => .error "Player's deck should not be empty"
  | some d =>
    let card_index : Nat :=
      match last_played_card with
      | none => 0
      | some c => c.sort_index
    match d.get_smallest_card card_index with
    | none => .ok (none, p)
    | some smallest_playable_card =>
      match d.play smallest_playable_card with
      | .error e => .error e
      | .ok (c, d2) => .ok (some c, { p with deck := some d2 })

/-- Python Player.has_card: len(self.deck) > 0 if self.deck is not None else False. -/
def Player.has_card (p : Player) : Bool :=
  match p.deck with
  | some d => decide (0 < d.cards.length)
  | none => false

/-- Python Player.discard_all_cards. -/
def Player.discard_all_cards (p : Player) : Player := { p with deck := none }

/-- Hand of a player as a plain list (empty when no deck is assigned). -/
def handOf (p : Player) : List Card :=
  match p.deck with
  | none => []
  | some d => d.cards

/-- Python SimpleBig2 state.  Python's last_played_player holds an object
reference compared by identity in next_turn; distinct player objects occupy
distinct roster positions, so the reference is modelled as the index of the
player in the roster. -/
structure SimpleBig2 where
  poker : Deck
  players : List Player
  last_played_card : Option Card
  last_played_player : Option Nat
deriving DecidableEq, Repr

/-- Python SimpleBig2.MAX_CARDS_PER_PLAYER. -/
def MAX_CARDS_PER_PLAYER : Nat := 12

/-- Python SimpleBig2.__init__. -/
def SimpleBig2.init (players : List Player) : SimpleBig2 :=
  { poker := Deck.new, players := players,
    last_played_card := none, last_played_player := none }

/-- Loop body of Python SimpleBig2.deal_cards: for each player in order,
draw MAX_CARDS_PER_PLAYER cards, order them and assign the hand. -/
def deal_loop : List Player → Deck → Except String (List Player × Deck)
  | [], poker => .ok ([], poker)
  | player :: rest, poker =>
    match poker.draw MAX_CARDS_PER_PLAYER with
    | .error e => .error e
    | .ok (drawn, poker2) =>
      match deal_loop rest poker2 with
      | .error e => .error e
      | .ok (rest2, poker3) =>
        .ok (player.dealt (Deck.order ⟨drawn⟩) :: rest2, poker3)

/-- Python SimpleBig2.deal_cards, including its final assert on the stock size. -/
def SimpleBig2.deal_cards (g : SimpleBig2) : Except String SimpleBig2 :=
  match deal_loop g.players g.poker with
  | .error e => .error e
  | .ok (players2, poker2) =>
    if poker2.count = 52 - g.players.length * MAX_CARDS_PER_PLAYER then
      .ok { g with players := players2, poker := poker2 }
    else .error "AssertionError"

/-- Loop body of Python SimpleBig2.determine_starting_player.  Each step
computes player.deck.get_smallest_card() (AttributeError when deck is None)
and updates when smallest_card is None or player_smallest_card is smaller
(TypeError when comparing None against a Card). -/
def det_loop : List Player → Option Player → Option Card →
    Except String (Option Player × Option Card)
  | [], starting_player, smallest_card => .ok (starting_player, smallest_card)
  | player :: rest, starting_player, smallest_card =>
    match player.deck with
    | none => .error "AttributeError: NoneType has no attribute get_smallest_card"
    | some d =>
      let player_smallest_card := d.get_smallest_card 0
      match smallest_card with
      | none => det_loop rest (some player) player_smallest_card
      | some sc =>
        match player_smallest_card with
        | none => .error "TypeError: lt not supported between NoneType and Card"
        | some pc =>
          if cardLt pc sc then det_loop rest (some player) (some pc)
          else det_loop rest starting_player smallest_card

/-- Python SimpleBig2.determine_starting_player. -/
def SimpleBig2.determine_starting_player (g : SimpleBig2) :
    Except String (Option Player) :=
  match det_loop g.players none none with
  | .error e => .error e
  | .ok (sp, _) => .ok sp

/-- Python SimpleBig2.rotate_players: left-rotate the roster so that the
first player equal to starting_player comes first. -/
def SimpleBig2.rotate_players (g : SimpleBig2) (starting_player : Player) :
    SimpleBig2 :=
  let i := g.players.indexOf starting_player
  { g with players := g.players.drop i ++ g.players.take i }

/-- Python SimpleBig2.setup: shuffle the stock, deal, determine the starting
player and rotate.  The permutation produced by random.shuffle is the
`shuffled` argument; list.index(None) and list.index on an absent player
raise ValueError. -/
def SimpleBig2.setup (g : SimpleBig2) (shuffled : List Card) :
    Except String SimpleBig2 :=
  match SimpleBig2.deal_cards { g with poker := ⟨shuffled⟩ } with
  | .error e => .error e
  | .ok g1 =>
    match g1.determine_starting_player with
    | .error e => .error e
    | .ok none => .error "ValueError: None is not in list"
    | .ok (some p) =>
      if p ∈ g1.players then .ok (g1.rotate_players p)
      else .error "ValueError: player is not in list"

/-- Python SimpleBig2.reset_last_played_card_if_all_players_passed: clears
last_played_card when the player about to act is the last_played_player. -/
def SimpleBig2.reset_last_played_card_if_all_players_passed
    (g : SimpleBig2) (player : Nat) : SimpleBig2 :=
  if g.last_played_player = some player then { g with last_played_card := none }
  else g

/-- Python SimpleBig2.next_turn: reset-if-returned, then let the player at
the given roster index play against last_played_card; on a play record the
card and the player.  The Bool reports whether a card was played. -/
def SimpleBig2.next_turn (g : SimpleBig2) (player : Nat) :
    Except String (SimpleBig2 × Bool) :=
  let g1 := g.reset_last_played_card_if_all_players_passed player
  match g1.players[player]? with
  | none => .error "IndexError: player index out of range"
  | some p =>
    match p.play g1.last_played_card with
    | .error e => .error e
    | .ok (none, p2) => .ok ({ g1 with players := g1.players.set player p2 }, false)
    | .ok (some c, p2) =>
      .ok ({ g1 with players := g1.players.set player p2,
                     last_played_card := some c,
                     last_played_player := some player }, true)

/-- Inner for-loop of Python SimpleBig2.start: one next_turn per roster
index, accumulating the number of successful card plays. -/
def run_turns : SimpleBig2 → Nat → List Nat → Except String (SimpleBig2 × Nat)
  | g, plays, [] => .ok (g, plays)
  | g, plays, i :: rest =>
    match g.next_turn i with
    | .error e => .error e
    | .ok (g2, b) => run_turns g2 (if b then plays + 1 else plays) rest

/-- Condition of the while-loop of Python SimpleBig2.start. -/
def SimpleBig2.all_has_card (g : SimpleBig2) : Bool :=
  g.players.all Player.has_card

/-- Python SimpleBig2.start: while every player has a card, run a full pass
of next_turn over the roster.  The fuel bounds the number of while-loop
iterations; the result is none when the fuel runs out before the loop
condition fails.  The Nat accumulates the number of successful card plays. -/
def start_fuel : Nat → SimpleBig2 → Nat → Except String (Option (SimpleBig2 × Nat))
  | 0, _, _ => .ok none
  | fuel + 1, g, plays =>
    if g.all_has_card then
      match run_turns g plays (List.range g.players.length) with
      | .error e => .error e
      | .ok (g2, plays2) => start_fuel fuel g2 plays2
    else
      .ok (some (g, plays))

/-- Total number of cards held across all hands. -/
def totalCards (g : SimpleBig2) : Nat :=
  (g.players.map (fun p => (handOf p).length)).sum

deriving instance DecidableEq for Except

/-- The card with ordinal 0 (3 of the lowest suit). -/
def threeDia : Card := ⟨"3", "♢"⟩

/-- The card with ordinal 5. -/
def fourClub : Card := ⟨"4", "♣"⟩

/-- A high card (ordinal 43). -/
def kingSpade : Card := ⟨"K", "♠"⟩

/-- Threshold used by Player.play: 0 when no card was last played. -/
def playThreshold : Option Card → Nat
  | none => 0
  | some c => c.sort_index

theorem get_smallest_card_some {d : Deck} {t : Nat} {c : Card}
    (h : d.get_smallest_card t = some c) : c ∈ d.cards ∧ t < c.sort_index := by
  unfold Deck.get_smallest_card at h
  have hm := List.mem_of_find?_eq_some h
  have hp := List.find?_some h
  refine ⟨?_, by simpa using hp⟩
  have hperm : List.Perm (sortBySortIndex d.cards) d.cards := by
    unfold sortBySortIndex
    exact List.perm_insertionSort _ _
  exact hperm.mem_iff.mp hm

theorem get_smallest_card_none {d : Deck} {t : Nat}
    (h : d.get_smallest_card t = none) : ∀ c ∈ d.cards, c.sort_index ≤ t := by
  intro c hc
  unfold Deck.get_smallest_card at h
  have hperm : List.Perm (sortBySortIndex d.cards) d.cards := by
    unfold sortBySortIndex
    exact List.perm_insertionSort _ _
  have hmem : c ∈ sortBySortIndex d.cards := hperm.mem_iff.mpr hc
  have := List.find?_eq_none.mp h c hmem
  simpa using this

theorem get_smallest_card_isSome {d : Deck} {t : Nat} {c : Card}
    (hc : c ∈ d.cards) (ht : t < c.sort_index) :
    ∃ c2, d.get_smallest_card t = some c2 := by
  rcases ho : d.get_smallest_card t with _ | c2
  · exact absurd ht (by simpa using get_smallest_card_none ho c hc)
  · exact ⟨c2, rfl⟩

theorem play_pass {p : Player} {d : Deck} {last : Option Card}
    (hd : p.deck = some d)
    (h : d.get_smallest_card (playThreshold last) = none) :
    p.play last = .ok (none, p) := by
  cases last with
  | none =>
    simp only [playThreshold] at h
    simp only [Player.play, hd, h]
  | some c =>
    simp only [playThreshold] at h
    simp only [Player.play, hd, h]

theorem play_play {p : Player} {d : Deck} {last : Option Card} {c : Card}
    (hd : p.deck = some d)
    (h : d.get_smallest_card (playThreshold last) = some c) :
    p.play last = .ok (some c, { p with deck := some ⟨d.cards.erase c⟩ }) := by
  have hmem : c ∈ d.cards := (get_smallest_card_some h).1
  cases last with
  | none =>
    simp only [playThreshold] at h
    simp only [Player.play, hd, h, Deck.play, if_pos hmem]
  | some c2 =>
    simp only [playThreshold] at h
    simp only [Player.play, hd, h, Deck.play, if_pos hmem]

theorem play_ok {p : Player} {d : Deck} (last : Option Card)
    (hd : p.deck = some d) :
    ∃ r, p.play last = .ok r := by
  rcases ho : d.get_smallest_card (playThreshold last) with _ | c
  · exact ⟨_, play_pass hd ho⟩
  · exact ⟨_, play_play hd ho⟩

theorem play_pass_unchanged {p q : Player} {last : Option Card}
    (h : p.play last = .ok (none, q)) : q = p := by
  rcases hd : p.deck with _ | d
  · unfold Player.play at h
    rw [hd] at h
    cases h
  · rcases ho : d.get_smallest_card (playThreshold last) with _ | c
    · have := play_pass hd ho
      rw [this] at h
      cases h
      rfl
    · have := play_play hd ho
      rw [this] at h
      cases h

theorem list_set_self {α : Type} :
    ∀ (l : List α) (i : Nat) (a : α), l[i]? = some a → l.set i a = l
  | [], i, a, h => by simp at h
  | x :: xs, 0, a, h => by
    simp at h
    simp [h]
  | x :: xs, i + 1, a, h => by
    simp only [List.getElem?_cons_succ] at h
    simp only [List.set_cons_succ]
    rw [list_set_self xs i a h]

/-- C1: code evaluation at the failing input.  With hand [3♢, 4♣] (ordinals
0 and 5) and last_played_card absent, play returns the ordinal-5 card 4♣
and leaves [3♢] in the hand: the strict threshold comparison makes the
ordinal-0 card unreturnable, contrary to the claimed smallest-card result. -/
theorem C1_code_eval :
    threeDia.sort_index = 0 ∧ fourClub.sort_index = 5 ∧
    Player.play ⟨"A", some ⟨[threeDia, fourClub]⟩⟩ none =
      .ok (some fourClub, ⟨"A", some ⟨[threeDia]⟩⟩) :=
  ⟨rfl, rfl, rfl⟩

/-- C4: draw returns exactly the first n cards and the count decreases by
exactly n when n is at most the deck size; when n exceeds the size, draw
fails with an error and no cards are removed. -/
theorem C4_draw_spec (d : Deck) (n : Nat) :
    (n ≤ d.count →
      d.draw n = .ok (d.cards.take n, ⟨d.cards.drop n⟩) ∧
      (d.cards.take n).length = n ∧
      Deck.count ⟨d.cards.drop n⟩ = d.count - n ∧
      d.cards.take n ++ d.cards.drop n = d.cards) ∧
    (d.count < n →
      d.draw n = .error "Cannot draw more cards than are in the deck") := by
  constructor
  · intro hle
    unfold Deck.count at hle
    refine ⟨?_, ?_, ?_, List.take_append_drop n d.cards⟩
    · unfold Deck.draw
      rw [if_neg (by omega)]
    · rw [List.length_take]
      omega
    · unfold Deck.count
      rw [List.length_drop]
  · intro hlt
    unfold Deck.count at hlt
    unfold Deck.draw
    rw [if_pos (by omega)]

theorem C4_draw_witness :
    (1 ≤ Deck.count ⟨[threeDia, fourClub]⟩ ∧
      Deck.draw ⟨[threeDia, fourClub]⟩ 1 = .ok ([threeDia], ⟨[fourClub]⟩)) ∧
    (Deck.count ⟨[threeDia, fourClub]⟩ < 5 ∧
      Deck.draw ⟨[threeDia, fourClub]⟩ 5 =
        .error "Cannot draw more cards than are in the deck") :=
  ⟨⟨by decide, ((C4_draw_spec ⟨[threeDia, fourClub]⟩ 1).1 (by decide)).1⟩,
   ⟨by decide, (C4_draw_spec ⟨[threeDia, fourClub]⟩ 5).2 (by decide)⟩⟩

/-- C6: for every valid (rank, suit) pair, rendering the card to its textual
code (rank then suit) and parsing the code back (last character as suit,
rest as rank) yields an equal card. -/
theorem C6_round_trip :
    ∀ r ∈ RANKS, ∀ s ∈ SUITS, parse_card (card_str ⟨r, s⟩) = .ok ⟨r, s⟩ := by
  decide

theorem C6_round_trip_witness :
    "10" ∈ RANKS ∧ "♠" ∈ SUITS ∧
      parse_card (card_str ⟨"10", "♠"⟩) = .ok ⟨"10", "♠"⟩ :=
  ⟨by decide, by decide, C6_round_trip "10" (by decide) "♠" (by decide)⟩

/-- C9: play never returns the ordinal-0 card: any returned card has
sort_index strictly above the threshold, and the threshold is never below
zero, so a returned card never has sort_index 0. -/
theorem C9_no_ordinal_zero (p : Player) (last : Option Card) (c : Card)
    (q : Player) (h : p.play last = .ok (some c, q)) : c.sort_index ≠ 0 := by
  rcases hd : p.deck with _ | d
  · unfold Player.play at h
    rw [hd] at h
    cases h
  · rcases ho : d.get_smallest_card (playThreshold last) with _ | c2
    · rw [play_pass hd ho] at h
      cases h
    · rw [play_play hd ho] at h
      cases h
      have := (get_smallest_card_some ho).2
      omega

theorem C9_witness : fourClub.sort_index ≠ 0 :=
  C9_no_ordinal_zero ⟨"A", some ⟨[threeDia, fourClub]⟩⟩ none fourClub
    ⟨"A", some ⟨[threeDia]⟩⟩ rfl

/-- C10: play fails exactly when no hand is assigned; with an assigned but
empty hand it passes (returns none) without error; has_card is false both
with no hand and with an empty hand. -/
theorem C10_no_hand_spec :
    (∀ (p : Player) (last : Option Card),
        (∃ e, p.play last = .error e) ↔ p.deck = none) ∧
    (∀ (p : Player) (last : Option Card),
        p.deck = some ⟨[]⟩ → p.play last = .ok (none, p)) ∧
    (∀ p : Player, p.deck = none → p.has_card = false) ∧
    (∀ p : Player, p.deck = some ⟨[]⟩ → p.has_card = false) := by
  refine ⟨?_, ?_, ?_, ?_⟩
  · intro p last
    constructor
    · rintro ⟨e, he⟩
      rcases hd : p.deck with _ | d
      · rfl
      · rcases play_ok last hd with ⟨r, hr⟩
        rw [hr] at he
        cases he
    · intro hd
      refine ⟨"Player's deck should not be empty", ?_⟩
      unfold Player.play
      rw [hd]
  · intro p last hd
    exact play_pass hd rfl
  · intro p hd
    unfold Player.has_card
    rw [hd]
  · intro p hd
    unfold Player.has_card
    rw [hd]
    rfl

theorem C10_witness :
    (∃ e, Player.play ⟨"N", none⟩ none = .error e) ∧
    Player.play ⟨"E", some ⟨[]⟩⟩ none = .ok (none, ⟨"E", some ⟨[]⟩⟩) ∧
    Player.has_card ⟨"N", none⟩ = false ∧
    Player.has_card ⟨"E", some ⟨[]⟩⟩ = false :=
  ⟨(C10_no_hand_spec.1 ⟨"N", none⟩ none).mpr rfl,
   C10_no_hand_spec.2.1 ⟨"E", some ⟨[]⟩⟩ none rfl,
   C10_no_hand_spec.2.2.1 ⟨"N", none⟩ rfl,
   C10_no_hand_spec.2.2.2 ⟨"E", some ⟨[]⟩⟩ rfl⟩

/-- C3 counterexample: in a state whose last_played_player is the player
about to act, the pre-turn reset clears last_played_card but leaves
last_played_player set, refuting the claim that both are cleared. -/
theorem C3_counterexample :
    ((SimpleBig2.mk ⟨[]⟩ [⟨"B", some ⟨[threeDia]⟩⟩] (some kingSpade)
        (some 0)).reset_last_played_card_if_all_players_passed 0).last_played_card
      = none ∧
    ((SimpleBig2.mk ⟨[]⟩ [⟨"B", some ⟨[threeDia]⟩⟩] (some kingSpade)
        (some 0)).reset_last_played_card_if_all_players_passed 0).last_played_player
      ≠ none :=
  ⟨rfl, by decide⟩

/-- C3 amended: when next_turn is invoked with the player equal to
last_played_player, only last_played_card is cleared before that player's
play; last_played_player is left unchanged, and the turn proceeds exactly
as it would from the state with an absent last_played_card, so the player
plays against an absent threshold. -/
theorem C3_amended (g : SimpleBig2) (i : Nat)
    (h : g.last_played_player = some i) :
    (g.reset_last_played_card_if_all_players_passed i).last_played_card = none ∧
    (g.reset_last_played_card_if_all_players_passed i).last_played_player = some i ∧
    g.next_turn i = SimpleBig2.next_turn { g with last_played_card := none } i := by
  have hr1 : g.reset_last_played_card_if_all_players_passed i =
      { g with last_played_card := none } := by
    unfold SimpleBig2.reset_last_played_card_if_all_players_passed
    rw [if_pos h]
  have hr2 : SimpleBig2.reset_last_played_card_if_all_players_passed
      { g with last_played_card := none } i = { g with last_played_card := none } := by
    unfold SimpleBig2.reset_last_played_card_if_all_players_passed
    rw [if_pos (show ({ g with last_played_card := none } :
      SimpleBig2).last_played_player = some i from h)]
  refine ⟨by rw [hr1], by rw [hr1]; exact h, ?_⟩
  unfold SimpleBig2.next_turn
  rw [hr1, hr2]

theorem C3_amended_witness :
    (SimpleBig2.mk ⟨[]⟩ [⟨"B", some ⟨[threeDia]⟩⟩] (some kingSpade)
        (some 0)).last_played_player = some 0 ∧
    (((SimpleBig2.mk ⟨[]⟩ [⟨"B", some ⟨[threeDia]⟩⟩] (some kingSpade)
        (some 0)).reset_last_played_card_if_all_players_passed 0).last_played_card
      = none ∧
     ((SimpleBig2.mk ⟨[]⟩ [⟨"B", some ⟨[threeDia]⟩⟩] (some kingSpade)
        (some 0)).reset_last_played_card_if_all_players_passed 0).last_played_player
      = some 0 ∧
     (SimpleBig2.mk ⟨[]⟩ [⟨"B", some ⟨[threeDia]⟩⟩] (some kingSpade)
        (some 0)).next_turn 0 =
       SimpleBig2.next_turn { SimpleBig2.mk ⟨[]⟩ [⟨"B", some ⟨[threeDia]⟩⟩]
        (some kingSpade) (some 0) with last_played_card := none } 0) :=
  ⟨rfl, C3_amended _ 0 rfl⟩

/-- C8 counterexample: the player at index 0 is the last_played_player with
hand [3♢] while last_played_card is K♠; within next_turn the play returns
none (the false flag), yet next_turn changes last_played_card from some K♠
to none (the reset branch fires), refuting the claim that a pass always
leaves last_played_card unchanged. -/
theorem C8_counterexample :
    (SimpleBig2.mk ⟨[]⟩ [⟨"B", some ⟨[threeDia]⟩⟩, ⟨"X", some ⟨[fourClub]⟩⟩]
        (some kingSpade) (some 0)).next_turn 0 =
      .ok (SimpleBig2.mk ⟨[]⟩ [⟨"B", some ⟨[threeDia]⟩⟩, ⟨"X", some ⟨[fourClub]⟩⟩]
        none (some 0), false) ∧
    (some kingSpade : Option Card) ≠ none :=
  ⟨rfl, by decide⟩

/-- C8 amended: a pass leaves the passing player's hand unchanged, and
provided the passing player is not the last_played_player (so the pre-turn
reset does not fire), next_turn leaves the entire state unchanged, in
particular last_played_card and last_played_player, so the next player
faces the same threshold. -/
theorem C8_pass_frame :
    (∀ (q : Player) (last : Option Card) (q2 : Player),
        q.play last = .ok (none, q2) → q2 = q) ∧
    (∀ (g : SimpleBig2) (i : Nat) (p : Player),
        g.players[i]? = some p →
        g.last_played_player ≠ some i →
        p.play g.last_played_card = .ok (none, p) →
        g.next_turn i = .ok (g, false)) := by
  constructor
  · exact fun q last q2 h => play_pass_unchanged h
  · intro g i p hp hne hpass
    have hreset : g.reset_last_played_card_if_all_players_passed i = g := by
      unfold SimpleBig2.reset_last_played_card_if_all_players_passed
      rw [if_neg hne]
    unfold SimpleBig2.next_turn
    rw [hreset]
    simp only [hp, hpass, list_set_self g.players i p hp]

theorem C8_pass_frame_witness :
    Player.play ⟨"B", some ⟨[threeDia]⟩⟩ (some kingSpade) =
      .ok (none, ⟨"B", some ⟨[threeDia]⟩⟩) ∧
    (SimpleBig2.mk ⟨[]⟩ [⟨"B", some ⟨[threeDia]⟩⟩, ⟨"X", some ⟨[fourClub]⟩⟩]
        (some kingSpade) (some 1)).next_turn 0 =
      .ok (SimpleBig2.mk ⟨[]⟩ [⟨"B", some ⟨[threeDia]⟩⟩, ⟨"X", some ⟨[fourClub]⟩⟩]
        (some kingSpade) (some 1), false) :=
  ⟨rfl,
   C8_pass_frame.2 _ 0 ⟨"B", some ⟨[threeDia]⟩⟩ rfl (by decide) rfl⟩

/-- Ordinals of the concrete deal used to refute C2: Adam receives the
ordinal-0 card together with ordinals 2..12, Ben receives ordinal 1 and
ordinals 13..23, Charlie 24..35, Derek 36..47; ordinals 48..51 remain in
the stock. -/
def c2_ordinals : List Nat :=
  [0] ++ (List.range 11).map (fun k => k + 2) ++
  ([1] ++ (List.range 11).map (fun k => k + 13)) ++
  (List.range 24).map (fun k => k + 24) ++
  (List.range 4).map (fun k => k + 48)

/-- The shuffled full deck realizing the ordinals above (fullDeckCards lists
the cards in ordinal order). -/
def c2_shuffled : List Card := c2_ordinals.map (fun n => fullDeckCards.getD n threeDia)

/-- C2: code evaluation at the failing deal.  Adam is dealt the ordinal-0
card 3♢, yet setup rotates Ben — the holder of the ordinal-1 card — to the
front of the roster: determine_starting_player skips each hand's ordinal-0
card because of the strict threshold, so the ordinal-0 holder loses the
comparison whenever another player holds ordinal 1. -/
theorem C2_code_eval :
    (SimpleBig2.setup (SimpleBig2.init
        [⟨"Adam", none⟩, ⟨"Ben", none⟩, ⟨"Charlie", none⟩, ⟨"Derek", none⟩])
        c2_shuffled).map
      (fun g => g.players.map (fun p => (p.name, decide (threeDia ∈ handOf p)))) =
    .ok [("Ben", false), ("Charlie", false), ("Derek", false), ("Adam", true)] ∧
    List.Perm c2_shuffled fullDeckCards :=
  ⟨rfl, by decide⟩

theorem mem_insertionSort_card {cs : List Card} {c : Card} :
    c ∈ List.insertionSort cardLe cs ↔ c ∈ cs :=
  (List.perm_insertionSort cardLe cs).mem_iff

/-- Reference description of deal_cards: the k-th player receives the
ordered k-th chunk of MAX_CARDS_PER_PLAYER cards of the shuffled stock. -/
def chunk_deal : List Player → List Card → List Player
  | [], _ => []
  | p :: rest, cs =>
    p.dealt (Deck.order ⟨cs.take MAX_CARDS_PER_PLAYER⟩) ::
      chunk_deal rest (cs.drop MAX_CARDS_PER_PLAYER)

theorem chunk_deal_length : ∀ (ps : List Player) (cs : List Card),
    (chunk_deal ps cs).length = ps.length
  | [], _ => rfl
  | _ :: rest, cs => by
    simp [chunk_deal, chunk_deal_length rest]

theorem deal_loop_eq : ∀ (ps : List Player) (cs : List Card),
    MAX_CARDS_PER_PLAYER * ps.length ≤ cs.length →
    deal_loop ps ⟨cs⟩ =
      .ok (chunk_deal ps cs, ⟨cs.drop (MAX_CARDS_PER_PLAYER * ps.length)⟩)
  | [], cs, _ => by simp [deal_loop, chunk_deal]
  | p :: rest, cs, h => by
    have hlen : MAX_CARDS_PER_PLAYER * (p :: rest).length =
        MAX_CARDS_PER_PLAYER * rest.length + MAX_CARDS_PER_PLAYER := by
      simp [List.length_cons]
      ring
    have hle : ¬ (MAX_CARDS_PER_PLAYER > (⟨cs⟩ : Deck).cards.length) := by
      rw [hlen] at h
      simp only
      omega
    have hrest : MAX_CARDS_PER_PLAYER * rest.length ≤
        (cs.drop MAX_CARDS_PER_PLAYER).length := by
      rw [List.length_drop]
      rw [hlen] at h
      omega
    have hdraw : Deck.draw ⟨cs⟩ MAX_CARDS_PER_PLAYER =
        .ok (cs.take MAX_CARDS_PER_PLAYER, ⟨cs.drop MAX_CARDS_PER_PLAYER⟩) := by
      unfold Deck.draw
      rw [if_neg hle]
    have hrec := deal_loop_eq rest (cs.drop MAX_CARDS_PER_PLAYER) hrest
    simp only [deal_loop, hdraw, hrec, chunk_deal, List.drop_drop, hlen]
    rw [Nat.add_comm]

theorem chunk_deal_mem : ∀ (ps : List Player) (cs : List Card),
    MAX_CARDS_PER_PLAYER * ps.length ≤ cs.length →
    ∀ q ∈ chunk_deal ps cs,
      ∃ hand : List Card, q.deck = some ⟨List.insertionSort cardLe hand⟩ ∧
        hand.length = MAX_CARDS_PER_PLAYER ∧ hand.Sublist cs
  | [], _, _, q, hq => by simp [chunk_deal] at hq
  | p :: rest, cs, h, q, hq => by
    have hcs : MAX_CARDS_PER_PLAYER ≤ cs.length := by
      simp only [List.length_cons] at h
      have hms : MAX_CARDS_PER_PLAYER * (rest.length + 1) =
          MAX_CARDS_PER_PLAYER * rest.length + MAX_CARDS_PER_PLAYER := by ring
      omega
    simp only [chunk_deal] at hq
    rcases List.mem_cons.mp hq with rfl | hq
    · refine ⟨cs.take MAX_CARDS_PER_PLAYER, rfl, ?_, List.take_sublist _ _⟩
      rw [List.length_take]
      omega
    · have hrest : MAX_CARDS_PER_PLAYER * rest.length ≤
          (cs.drop MAX_CARDS_PER_PLAYER).length := by
        rw [List.length_drop]
        simp only [List.length_cons] at h
        have hms : MAX_CARDS_PER_PLAYER * (rest.length + 1) =
            MAX_CARDS_PER_PLAYER * rest.length + MAX_CARDS_PER_PLAYER := by ring
        omega
      rcases chunk_deal_mem rest (cs.drop MAX_CARDS_PER_PLAYER) hrest q hq with
        ⟨hand, hdeck, hlen, hsub⟩
      exact ⟨hand, hdeck, hlen, hsub.trans (List.drop_sublist _ _)⟩

theorem chunk_deal_hand_subset : ∀ (ps : List Player) (cs : List Card),
    ∀ q ∈ chunk_deal ps cs, ∀ c ∈ handOf q, c ∈ cs
  | [], _, q, hq => by simp [chunk_deal] at hq
  | p :: rest, cs, q, hq => by
    simp only [chunk_deal] at hq
    rcases List.mem_cons.mp hq with rfl | hq
    · intro c hc
      simp only [handOf, Player.dealt, Deck.order] at hc
      exact List.take_subset _ _ (mem_insertionSort_card.mp hc)
    · intro c hc
      exact List.drop_subset _ cs
        (chunk_deal_hand_subset rest (cs.drop MAX_CARDS_PER_PLAYER) q hq c hc)

theorem chunk_deal_disjoint : ∀ (ps : List Player) (cs : List Card),
    cs.Nodup →
    (chunk_deal ps cs).Pairwise (fun p q => ∀ c ∈ handOf p, c ∉ handOf q)
  | [], _, _ => List.Pairwise.nil
  | p :: rest, cs, hnd => by
    simp only [chunk_deal]
    refine List.Pairwise.cons ?_
      (chunk_deal_disjoint rest (cs.drop MAX_CARDS_PER_PLAYER)
        (List.Nodup.sublist (List.drop_sublist _ _) hnd))
    intro q hq c hc hcq
    have hctake : c ∈ cs.take MAX_CARDS_PER_PLAYER := by
      simp only [handOf, Player.dealt, Deck.order] at hc
      exact mem_insertionSort_card.mp hc
    have hcdrop : c ∈ cs.drop MAX_CARDS_PER_PLAYER :=
      chunk_deal_hand_subset rest _ q hq c hcq
    have hdisj : (cs.take MAX_CARDS_PER_PLAYER).Disjoint
        (cs.drop MAX_CARDS_PER_PLAYER) := by
      have hnd2 := hnd
      rw [← List.take_append_drop MAX_CARDS_PER_PLAYER cs] at hnd2
      exact (List.nodup_append.mp hnd2).2.2
    exact hdisj hctake hcdrop

theorem fullDeck_nodup : fullDeckCards.Nodup := by decide

theorem fullDeck_length : fullDeckCards.length = 52 := by decide

theorem zero_card_unique : ∀ c ∈ fullDeckCards, c.sort_index = 0 → c = threeDia := by
  decide

theorem hand_has_positive_card {hand : List Card}
    (hnd : hand.Nodup) (hsub : ∀ c ∈ hand, c ∈ fullDeckCards)
    (hlen : 2 ≤ hand.length) : ∃ c ∈ hand, 0 < c.sort_index := by
  by_contra h
  push_neg at h
  have hall : ∀ c ∈ hand, c = threeDia := fun c hc =>
    zero_card_unique c (hsub c hc) (by have := h c hc; omega)
  rcases hand with _ | ⟨x, hand2⟩
  · simp at hlen
  rcases hand2 with _ | ⟨y, t⟩
  · simp at hlen
  · have hx := hall x (by simp)
    have hy := hall y (by simp)
    have hne : x ≠ y := by
      have hm := (List.nodup_cons.mp hnd).1
      intro he
      exact hm (he ▸ List.mem_cons_self y t)
    exact hne (hx.trans hy.symm)

theorem deal_cards_eq (poker0 : Deck) (ps : List Player) (lpc : Option Card)
    (lpp : Option Nat) (cs : List Card)
    (h4 : ps.length = 4) (hlen : cs.length = 52) :
    SimpleBig2.deal_cards
      { SimpleBig2.mk poker0 ps lpc lpp with poker := ⟨cs⟩ } =
      .ok ⟨⟨cs.drop 48⟩, chunk_deal ps cs, lpc, lpp⟩ := by
  have h48 : MAX_CARDS_PER_PLAYER * ps.length ≤ cs.length := by
    rw [h4, hlen]
    norm_num [MAX_CARDS_PER_PLAYER]
  unfold SimpleBig2.deal_cards
  simp only
  rw [deal_loop_eq ps cs h48]
  simp only [h4]
  norm_num [MAX_CARDS_PER_PLAYER, Deck.count, List.length_drop, hlen]

theorem det_loop_ok : ∀ (ps : List Player) (sp : Option Player) (sc : Option Card),
    (∀ p ∈ ps, ∃ d, p.deck = some d ∧ ∃ c, d.get_smallest_card 0 = some c) →
    ∃ r, det_loop ps sp sc = .ok r ∧ (r.1 = sp ∨ ∃ q ∈ ps, r.1 = some q)
  | [], sp, sc, _ => ⟨(sp, sc), rfl, Or.inl rfl⟩
  | p :: rest, sp, sc, h => by
    rcases h p (List.mem_cons_self p rest) with ⟨d, hd, c, hc⟩
    have hrest : ∀ q ∈ rest, ∃ d2, q.deck = some d2 ∧
        ∃ c2, d2.get_smallest_card 0 = some c2 :=
      fun q hq => h q (List.mem_cons_of_mem p hq)
    cases sc with
    | none =>
      rcases det_loop_ok rest (some p) (d.get_smallest_card 0) hrest with ⟨r, hr, hor⟩
      refine ⟨r, ?_, ?_⟩
      · simp only [det_loop, hd]
        exact hr
      · rcases hor with h1 | ⟨q, hq, h2⟩
        · exact Or.inr ⟨p, List.mem_cons_self p rest, h1⟩
        · exact Or.inr ⟨q, List.mem_cons_of_mem p hq, h2⟩
    | some sc0 =>
      by_cases hlt : cardLt c sc0
      · rcases det_loop_ok rest (some p) (some c) hrest with ⟨r, hr, hor⟩
        refine ⟨r, ?_, ?_⟩
        · simp only [det_loop, hd, hc]
          rw [if_pos hlt]
          exact hr
        · rcases hor with h1 | ⟨q, hq, h2⟩
          · exact Or.inr ⟨p, List.mem_cons_self p rest, h1⟩
          · exact Or.inr ⟨q, List.mem_cons_of_mem p hq, h2⟩
      · rcases det_loop_ok rest sp (some sc0) hrest with ⟨r, hr, hor⟩
        refine ⟨r, ?_, ?_⟩
        · simp only [det_loop, hd, hc]
          rw [if_neg hlt]
          exact hr
        · rcases hor with h1 | ⟨q, hq, h2⟩
          · exact Or.inl h1
          · exact Or.inr ⟨q, List.mem_cons_of_mem p hq, h2⟩

theorem chunk_deal_player_smallest {ps : List Player} {cs : List Card}
    (hperm : List.Perm cs fullDeckCards)
    (hle : MAX_CARDS_PER_PLAYER * ps.length ≤ cs.length) :
    ∀ q ∈ chunk_deal ps cs,
      ∃ d, q.deck = some d ∧ ∃ c, d.get_smallest_card 0 = some c := by
  intro q hq
  rcases chunk_deal_mem ps cs hle q hq with ⟨hand, hdeck, hlen, hsub⟩
  refine ⟨_, hdeck, ?_⟩
  have hnd : hand.Nodup :=
    List.Nodup.sublist hsub (hperm.nodup_iff.mpr fullDeck_nodup)
  have hsubfull : ∀ c ∈ hand, c ∈ fullDeckCards :=
    fun c hc => hperm.subset (hsub.subset hc)
  have h2 : 2 ≤ hand.length := by
    rw [hlen]
    norm_num [MAX_CARDS_PER_PLAYER]
  rcases hand_has_positive_card hnd hsubfull h2 with ⟨c, hc, hpos⟩
  exact get_smallest_card_isSome
    (show c ∈ (⟨List.insertionSort cardLe hand⟩ : Deck).cards from
      mem_insertionSort_card.mpr hc) hpos

theorem rotate_perm (g : SimpleBig2) (p : Player) :
    List.Perm (g.rotate_players p).players g.players := by
  unfold SimpleBig2.rotate_players
  simp only
  have h1 : List.Perm
      (g.players.drop (g.players.indexOf p) ++ g.players.take (g.players.indexOf p))
      (g.players.take (g.players.indexOf p) ++ g.players.drop (g.players.indexOf p)) :=
    List.perm_append_comm
  rw [List.take_append_drop] at h1
  exact h1

theorem setup_eq (g : SimpleBig2) (shuffled : List Card)
    (h4 : g.players.length = 4) (hs : List.Perm shuffled fullDeckCards) :
    ∃ g2, g.setup shuffled = .ok g2 ∧
      List.Perm g2.players (chunk_deal g.players shuffled) ∧
      g2.poker = ⟨shuffled.drop 48⟩ ∧
      g2.last_played_card = g.last_played_card ∧
      g2.last_played_player = g.last_played_player := by
  obtain ⟨poker0, ps0, lpc0, lpp0⟩ := g
  simp only at h4 ⊢
  have hlen : shuffled.length = 52 := by
    rw [hs.length_eq, fullDeck_length]
  have hle : MAX_CARDS_PER_PLAYER * ps0.length ≤ shuffled.length := by
    rw [h4, hlen]
    norm_num [MAX_CARDS_PER_PLAYER]
  have hdeal := deal_cards_eq poker0 ps0 lpc0 lpp0 shuffled h4 hlen
  have hprem : ∀ q ∈ chunk_deal ps0 shuffled,
      ∃ d, q.deck = some d ∧ ∃ c, d.get_smallest_card 0 = some c :=
    chunk_deal_player_smallest hs hle
  have hchunklen : (chunk_deal ps0 shuffled).length = 4 := by
    rw [chunk_deal_length, h4]
  rcases hshape : chunk_deal ps0 shuffled with _ | ⟨q0, qrest⟩
  · rw [hshape] at hchunklen
    simp at hchunklen
  · rcases hprem q0 (by rw [hshape]; exact List.mem_cons_self q0 qrest) with
      ⟨d0, hd0, c0, hc0⟩
    have hrestprem : ∀ q ∈ qrest, ∃ d, q.deck = some d ∧
        ∃ c, d.get_smallest_card 0 = some c :=
      fun q hq => hprem q (by rw [hshape]; exact List.mem_cons_of_mem q0 hq)
    rcases det_loop_ok qrest (some q0) (some c0) hrestprem with ⟨r, hr, hor⟩
    obtain ⟨spf, scf⟩ := r
    have hq_mem : ∃ q ∈ q0 :: qrest, spf = some q := by
      rcases hor with h1 | ⟨q, hq, h2⟩
      · exact ⟨q0, List.mem_cons_self q0 qrest, h1⟩
      · exact ⟨q, List.mem_cons_of_mem q0 hq, h2⟩
    rcases hq_mem with ⟨q, hqmem, hspf⟩
    subst hspf
    have hdet : det_loop (q0 :: qrest) none none = .ok (some q, scf) := by
      simp only [det_loop, hd0, hc0]
      exact hr
    set g1 : SimpleBig2 := ⟨⟨shuffled.drop 48⟩, q0 :: qrest, lpc0, lpp0⟩ with hg1
    have hdet2 : g1.determine_starting_player = .ok (some q) := by
      unfold SimpleBig2.determine_starting_player
      simp only [hg1]
      rw [hdet]
    have hmem1 : q ∈ g1.players := hqmem
    refine ⟨g1.rotate_players q, ?_, ?_, ?_, ?_, ?_⟩
    · unfold SimpleBig2.setup
      rw [show SimpleBig2.deal_cards
          { SimpleBig2.mk poker0 ps0 lpc0 lpp0 with poker := ⟨shuffled⟩ } =
          .ok g1 from by rw [hdeal, hg1, hshape]]
      simp only
      rw [hdet2]
      simp only
      rw [if_pos hmem1]
    · exact rotate_perm g1 q
    · unfold SimpleBig2.rotate_players
      rfl
    · unfold SimpleBig2.rotate_players
      rfl
    · unfold SimpleBig2.rotate_players
      rfl

/-- C5: after setup on a 4-player game with any permutation of the full deck
as the shuffle result, setup succeeds, every player holds exactly 12 cards
sorted in ascending ordinal order, and the undealt stock holds exactly 4
cards. -/
theorem C5_deal_invariant (g : SimpleBig2) (shuffled : List Card)
    (h4 : g.players.length = 4) (hs : List.Perm shuffled fullDeckCards) :
    ∃ g2, g.setup shuffled = .ok g2 ∧
      g2.poker.count = 4 ∧
      g2.players.length = 4 ∧
      ∀ p ∈ g2.players, ∃ d, p.deck = some d ∧
        d.cards.length = 12 ∧
        d.cards.Pairwise (fun a b => a.sort_index ≤ b.sort_index) := by
  rcases setup_eq g shuffled h4 hs with ⟨g2, hsetup, hperm, hpoker, _, _⟩
  have hlen : shuffled.length = 52 := by rw [hs.length_eq, fullDeck_length]
  have hle : MAX_CARDS_PER_PLAYER * g.players.length ≤ shuffled.length := by
    rw [h4, hlen]
    norm_num [MAX_CARDS_PER_PLAYER]
  refine ⟨g2, hsetup, ?_, ?_, ?_⟩
  · rw [hpoker]
    unfold Deck.count
    simp [List.length_drop, hlen]
  · rw [hperm.length_eq, chunk_deal_length, h4]
  · intro p hp
    have hpc : p ∈ chunk_deal g.players shuffled := hperm.mem_iff.mp hp
    rcases chunk_deal_mem g.players shuffled hle p hpc with ⟨hand, hdeck, hlenh, hsub⟩
    refine ⟨_, hdeck, ?_, ?_⟩
    · show (List.insertionSort cardLe hand).length = 12
      rw [(List.perm_insertionSort cardLe hand).length_eq, hlenh]
      rfl
    · have hsorted : List.Sorted cardLe (List.insertionSort cardLe hand) :=
        List.sorted_insertionSort cardLe hand
      exact List.Pairwise.imp (fun h => cardLe_sort_index h) hsorted

theorem C5_deal_invariant_witness :
    (SimpleBig2.init [⟨"Adam", none⟩, ⟨"Ben", none⟩, ⟨"Charlie", none⟩,
      ⟨"Derek", none⟩]).players.length = 4 ∧
    List.Perm fullDeckCards fullDeckCards ∧
    (∃ g2, (SimpleBig2.init [⟨"Adam", none⟩, ⟨"Ben", none⟩, ⟨"Charlie", none⟩,
        ⟨"Derek", none⟩]).setup fullDeckCards = .ok g2 ∧
      g2.poker.count = 4 ∧
      g2.players.length = 4 ∧
      ∀ p ∈ g2.players, ∃ d, p.deck = some d ∧
        d.cards.length = 12 ∧
        d.cards.Pairwise (fun a b => a.sort_index ≤ b.sort_index)) :=
  ⟨rfl, List.Perm.refl _,
   C5_deal_invariant _ fullDeckCards rfl (List.Perm.refl _)⟩

/-- Invariant preserved by the turn loop on a well-formed 4-player deal:
four players each holding an assigned hand of distinct cards drawn from the
52-card universe, with pairwise disjoint hands, the last-played position in
range, and a last-played card only when a last-played player exists. -/
structure GameInv (g : SimpleBig2) : Prop where
  nplayers : g.players.length = 4
  decks : ∀ p ∈ g.players, ∃ d, p.deck = some d
  nodup : ∀ p ∈ g.players, (handOf p).Nodup
  valid : ∀ p ∈ g.players, ∀ c ∈ handOf p, c ∈ fullDeckCards
  disj : g.players.Pairwise (fun p q => ∀ c ∈ handOf p, c ∉ handOf q)
  lpp_lt : ∀ i, g.last_played_player = some i → i < 4
  card_player : g.last_played_card ≠ none → g.last_played_player ≠ none

theorem length_eq_four {α : Type} {l : List α} (h : l.length = 4) :
    ∃ a b c d, l = [a, b, c, d] := by
  rcases l with _ | ⟨a, l⟩
  · simp at h
  rcases l with _ | ⟨b, l⟩
  · simp at h
  rcases l with _ | ⟨c, l⟩
  · simp at h
  rcases l with _ | ⟨d, l⟩
  · simp at h
  rcases l with _ | ⟨e, l⟩
  · exact ⟨a, b, c, d, rfl⟩
  · simp at h

theorem reset_players (g : SimpleBig2) (i : Nat) :
    (g.reset_last_played_card_if_all_players_passed i).players = g.players := by
  unfold SimpleBig2.reset_last_played_card_if_all_players_passed
  split <;> rfl

theorem reset_poker (g : SimpleBig2) (i : Nat) :
    (g.reset_last_played_card_if_all_players_passed i).poker = g.poker := by
  unfold SimpleBig2.reset_last_played_card_if_all_players_passed
  split <;> rfl

theorem reset_lpp (g : SimpleBig2) (i : Nat) :
    (g.reset_last_played_card_if_all_players_passed i).last_played_player =
      g.last_played_player := by
  unfold SimpleBig2.reset_last_played_card_if_all_players_passed
  split <;> rfl

theorem reset_card (g : SimpleBig2) (i : Nat) :
    (g.reset_last_played_card_if_all_players_passed i).last_played_card =
      g.last_played_card ∨
    (g.reset_last_played_card_if_all_players_passed i).last_played_card = none := by
  unfold SimpleBig2.reset_last_played_card_if_all_players_passed
  split
  · exact Or.inr rfl
  · exact Or.inl rfl

theorem reset_card_of_lpp (g : SimpleBig2) (i : Nat)
    (h : g.last_played_player = some i) :
    (g.reset_last_played_card_if_all_players_passed i).last_played_card = none := by
  unfold SimpleBig2.reset_last_played_card_if_all_players_passed
  rw [if_pos h]

theorem reset_card_of_ne (g : SimpleBig2) (i : Nat)
    (h : g.last_played_player ≠ some i) :
    (g.reset_last_played_card_if_all_players_passed i).last_played_card =
      g.last_played_card := by
  unfold SimpleBig2.reset_last_played_card_if_all_players_passed
  rw [if_neg h]

theorem reset_self_of_card_none {g : SimpleBig2} (h : g.last_played_card = none)
    (i : Nat) : g.reset_last_played_card_if_all_players_passed i = g := by
  unfold SimpleBig2.reset_last_played_card_if_all_players_passed
  split
  · obtain ⟨a, b, c, d⟩ := g
    simp only at h
    rw [h]
  · rfl

theorem next_turn_decomp (g : SimpleBig2) (i : Nat) (p : Player)
    (hip : g.players[i]? = some p) :
    g.next_turn i =
      (match p.play
          (g.reset_last_played_card_if_all_players_passed i).last_played_card with
       | .error e => .error e
       | .ok (none, p2) =>
         .ok ({ g.reset_last_played_card_if_all_players_passed i with
                players := g.players.set i p2 }, false)
       | .ok (some c, p2) =>
         .ok ({ g.reset_last_played_card_if_all_players_passed i with
                players := g.players.set i p2,
                last_played_card := some c,
                last_played_player := some i }, true)) := by
  unfold SimpleBig2.next_turn
  have hp1 : (g.reset_last_played_card_if_all_players_passed i).players[i]? = some p := by
    rw [reset_players]
    exact hip
  simp only [reset_players, hip]

theorem next_turn_pass_eq (g : SimpleBig2) (i : Nat) (p : Player)
    (hip : g.players[i]? = some p)
    (hpass : p.play (g.reset_last_played_card_if_all_players_passed i).last_played_card
      = .ok (none, p)) :
    g.next_turn i = .ok (g.reset_last_played_card_if_all_players_passed i, false) := by
  rw [next_turn_decomp g i p hip]
  simp only [hpass]
  rw [list_set_self _ i p hip]
  rcases hres : g.reset_last_played_card_if_all_players_passed i with ⟨a, b, c, d⟩
  have : g.players = b := by
    have := reset_players g i
    rw [hres] at this
    exact this.symm
  rw [this]

theorem next_turn_play_eq (g : SimpleBig2) (i : Nat) (p : Player) (c : Card)
    (p2 : Player)
    (hip : g.players[i]? = some p)
    (hplay : p.play (g.reset_last_played_card_if_all_players_passed i).last_played_card
      = .ok (some c, p2)) :
    g.next_turn i = .ok ({ g.reset_last_played_card_if_all_players_passed i with
      players := g.players.set i p2,
      last_played_card := some c,
      last_played_player := some i }, true) := by
  rw [next_turn_decomp g i p hip]
  simp only [hplay]

theorem totalCards_set : ∀ (l : List Player) (i : Nat) (p p2 : Player),
    l[i]? = some p →
    ((l.set i p2).map (fun q => (handOf q).length)).sum + (handOf p).length =
      (l.map (fun q => (handOf q).length)).sum + (handOf p2).length
  | [], i, p, p2, h => by simp at h
  | x :: xs, 0, p, p2, h => by
    simp only [List.getElem?_cons_zero, Option.some_inj] at h
    subst h
    simp [List.set_cons_zero]
    omega
  | x :: xs, i + 1, p, p2, h => by
    simp only [List.getElem?_cons_succ] at h
    have ih := totalCards_set xs i p p2 h
    simp only [List.set_cons_succ, List.map_cons, List.sum_cons]
    omega

theorem pairwise_set {α : Type} {R : α → α → Prop} :
    ∀ (l : List α) (i : Nat) (p p2 : α),
    l[i]? = some p → l.Pairwise R →
    (∀ q, R p q → R p2 q) → (∀ q, R q p → R q p2) →
    (l.set i p2).Pairwise R
  | [], i, p, p2, h, _, _, _ => by simp at h
  | x :: xs, 0, p, p2, h, hp, h1, h2 => by
    simp only [List.getElem?_cons_zero, Option.some_inj] at h
    subst h
    rw [List.set_cons_zero]
    rcases List.pairwise_cons.mp hp with ⟨hx, hxs⟩
    exact List.pairwise_cons.mpr ⟨fun q hq => h1 q (hx q hq), hxs⟩
  | x :: xs, i + 1, p, p2, h, hp, h1, h2 => by
    simp only [List.getElem?_cons_succ] at h
    rw [List.set_cons_succ]
    rcases List.pairwise_cons.mp hp with ⟨hx, hxs⟩
    refine List.pairwise_cons.mpr ⟨?_, pairwise_set xs i p p2 h hxs h1 h2⟩
    intro q hq
    rcases List.mem_or_eq_of_mem_set hq with hq2 | rfl
    · exact hx q hq2
    · exact h2 x (hx p (List.getElem?_mem h))

theorem handOf_some {p : Player} {d : Deck} (h : p.deck = some d) :
    handOf p = d.cards := by
  unfold handOf
  rw [h]

theorem totalCards_eq_of_players {g g2 : SimpleBig2}
    (h : g2.players = g.players) : totalCards g2 = totalCards g := by
  unfold totalCards
  rw [h]

theorem next_turn_inv (g : SimpleBig2) (i : Nat) (hinv : GameInv g) (hi : i < 4) :
    ∃ g2 b, g.next_turn i = .ok (g2, b) ∧ GameInv g2 ∧
      g2.poker = g.poker ∧
      (b = true → totalCards g2 + 1 = totalCards g ∧
        g2.last_played_card ≠ none ∧ g2.last_played_player = some i) ∧
      (b = false → totalCards g2 = totalCards g ∧
        g2 = g.reset_last_played_card_if_all_players_passed i) := by
  have hlen : i < g.players.length := by
    rw [hinv.nplayers]
    exact hi
  have hip : g.players[i]? = some g.players[i] := List.getElem?_eq_getElem hlen
  set p := g.players[i] with hp
  have hpmem : p ∈ g.players := List.getElem_mem hlen
  rcases hinv.decks p hpmem with ⟨d, hd⟩
  rcases hsm : d.get_smallest_card
      (playThreshold (g.reset_last_played_card_if_all_players_passed
        i).last_played_card) with _ | c
  · -- pass branch
    have hnt := next_turn_pass_eq g i p hip (play_pass hd hsm)
    refine ⟨_, false, hnt, ?_, reset_poker g i, ?_, ?_⟩
    · refine ⟨?_, ?_, ?_, ?_, ?_, ?_, ?_⟩
      · rw [reset_players]
        exact hinv.nplayers
      · rw [reset_players]
        exact hinv.decks
      · rw [reset_players]
        exact hinv.nodup
      · rw [reset_players]
        exact hinv.valid
      · rw [reset_players]
        exact hinv.disj
      · intro j hj
        rw [reset_lpp] at hj
        exact hinv.lpp_lt j hj
      · intro hc
        rw [reset_lpp]
        rcases reset_card g i with h1 | h1
        · rw [h1] at hc
          exact hinv.card_player hc
        · exact absurd h1 hc
    · intro h
      simp at h
    · intro _
      exact ⟨totalCards_eq_of_players (reset_players g i), rfl⟩
  · -- play branch
    have hcmem : c ∈ d.cards := (get_smallest_card_some hsm).1
    set p2 : Player := { p with deck := some ⟨d.cards.erase c⟩ } with hp2
    have hnt := next_turn_play_eq g i p c p2 hip (play_play hd hsm)
    have hhp : handOf p = d.cards := handOf_some hd
    have hhp2 : handOf p2 = d.cards.erase c := by
      rw [hp2]
      unfold handOf
      simp only
    have hsubl : (handOf p2).Sublist (handOf p) := by
      rw [hhp, hhp2]
      exact List.erase_sublist c d.cards
    refine ⟨_, true, hnt, ?_, reset_poker g i, ?_, ?_⟩
    · refine ⟨?_, ?_, ?_, ?_, ?_, ?_, ?_⟩
      · show (g.players.set i p2).length = 4
        simp only [List.length_set]
        exact hinv.nplayers
      · show ∀ q ∈ g.players.set i p2, ∃ d2, q.deck = some d2
        intro q hq
        rcases List.mem_or_eq_of_mem_set hq with hq2 | rfl
        · exact hinv.decks q hq2
        · exact ⟨_, rfl⟩
      · show ∀ q ∈ g.players.set i p2, (handOf q).Nodup
        intro q hq
        rcases List.mem_or_eq_of_mem_set hq with hq2 | rfl
        · exact hinv.nodup q hq2
        · exact List.Nodup.sublist hsubl (hinv.nodup p hpmem)
      · show ∀ q ∈ g.players.set i p2, ∀ c2 ∈ handOf q, c2 ∈ fullDeckCards
        intro q hq
        rcases List.mem_or_eq_of_mem_set hq with hq2 | rfl
        · exact hinv.valid q hq2
        · exact fun c2 hc2 => hinv.valid p hpmem c2 (hsubl.subset hc2)
      · show (g.players.set i p2).Pairwise (fun p q => ∀ c ∈ handOf p, c ∉ handOf q)
        exact pairwise_set g.players i p p2 hip hinv.disj
          (fun q hq c2 hc2 => hq c2 (hsubl.subset hc2))
          (fun q hq c2 hc2 hc3 => hq c2 hc2 (hsubl.subset hc3))
      · show ∀ j, some i = some j → j < 4
        intro j hj
        simp only [Option.some_inj] at hj
        omega
      · show (some c : Option Card) ≠ none → (some i : Option Nat) ≠ none
        intro _
        simp
    · intro _
      refine ⟨?_, by simp, rfl⟩
      show (List.map (fun q => (handOf q).length) (g.players.set i p2)).sum + 1 =
        (List.map (fun q => (handOf q).length) g.players).sum
      have hset := totalCards_set g.players i p p2 hip
      have herase : (d.cards.erase c).length + 1 = d.cards.length := by
        rw [List.length_erase_of_mem hcmem]
        have hpos : 0 < d.cards.length := List.length_pos.mpr
          (fun he => by rw [he] at hcmem; cases hcmem)
        omega
      rw [hhp, hhp2] at hset
      omega
    · intro h
      simp at h

theorem run_turns_inv : ∀ (is : List Nat) (g : SimpleBig2) (n : Nat),
    GameInv g → (∀ i ∈ is, i < 4) →
    ∃ g2 n2, run_turns g n is = .ok (g2, n2) ∧ GameInv g2 ∧
      totalCards g2 ≤ totalCards g ∧
      n2 + totalCards g2 = n + totalCards g ∧
      (totalCards g2 = totalCards g →
        g2.last_played_player = g.last_played_player ∧
        (g.last_played_card = none → g2.last_played_card = none) ∧
        (∀ j ∈ is, g.last_played_player = some j → g2.last_played_card = none))
  | [], g, n, hinv, _ =>
    ⟨g, n, rfl, hinv, le_refl _, rfl,
     fun _ => ⟨rfl, fun h => h, fun j hj => absurd hj (List.not_mem_nil j)⟩⟩
  | i :: rest, g, n, hinv, his => by
    have hi : i < 4 := his i (List.mem_cons_self i rest)
    rcases next_turn_inv g i hinv hi with ⟨g1, b, hnt, hinv1, _, htrue, hfalse⟩
    have hrest : ∀ j ∈ rest, j < 4 := fun j hj => his j (List.mem_cons_of_mem i hj)
    rcases run_turns_inv rest g1 (if b then n + 1 else n) hinv1 hrest with
      ⟨g2, n2, hrun, hinv2, hle2, hacc2, hpb2⟩
    have hstep : run_turns g n (i :: rest) = .ok (g2, n2) := by
      unfold run_turns
      rw [hnt]
      exact hrun
    cases b with
    | false =>
      rcases hfalse rfl with ⟨hT1, hg1⟩
      simp only [if_neg Bool.false_ne_true] at hacc2
      refine ⟨g2, n2, hstep, hinv2, by omega, by omega, ?_⟩
      intro hTeq
      have hT21 : totalCards g2 = totalCards g1 := by omega
      rcases hpb2 hT21 with ⟨hP1, hP2, hP3⟩
      refine ⟨?_, ?_, ?_⟩
      · rw [hP1, hg1, reset_lpp]
      · intro hcn
        apply hP2
        rw [hg1]
        rcases reset_card g i with h1 | h1
        · rw [h1]
          exact hcn
        · exact h1
      · intro j hj hlppj
        rcases List.mem_cons.mp hj with rfl | hjr
        · apply hP2
          rw [hg1]
          exact reset_card_of_lpp g j hlppj
        · apply hP3 j hjr
          rw [hg1, reset_lpp]
          exact hlppj
    | true =>
      rcases htrue rfl with ⟨hT1, _, _⟩
      simp only [if_true] at hacc2
      refine ⟨g2, n2, hstep, hinv2, by omega, by omega, ?_⟩
      intro hTeq
      exfalso
      omega

theorem hand_nonempty_of_all {g : SimpleBig2} (hall : g.all_has_card = true)
    {p : Player} (hp : p ∈ g.players) {d : Deck} (hd : p.deck = some d) :
    0 < d.cards.length := by
  unfold SimpleBig2.all_has_card at hall
  have h2 := (List.all_eq_true.mp hall) p hp
  unfold Player.has_card at h2
  rw [hd] at h2
  simpa using h2

theorem run_turns_cons_false (g : SimpleBig2) (n : Nat) (i : Nat) (is2 : List Nat)
    (g2 : SimpleBig2) (h : g.next_turn i = .ok (g2, false)) :
    run_turns g n (i :: is2) = run_turns g2 n is2 := by
  have e : run_turns g n (i :: is2) =
      (match g.next_turn i with
       | Except.error e => Except.error e
       | Except.ok (g3, b) => run_turns g3 (if b then n + 1 else n) is2 :
       Except String (SimpleBig2 × Nat)) := rfl
  rw [e, h]
  rfl

theorem run_turns_cons_true (g : SimpleBig2) (n : Nat) (i : Nat) (is2 : List Nat)
    (g2 : SimpleBig2) (h : g.next_turn i = .ok (g2, true)) :
    run_turns g n (i :: is2) = run_turns g2 (n + 1) is2 := by
  have e : run_turns g n (i :: is2) =
      (match g.next_turn i with
       | Except.error e => Except.error e
       | Except.ok (g3, b) => run_turns g3 (if b then n + 1 else n) is2 :
       Except String (SimpleBig2 × Nat)) := rfl
  rw [e, h]
  rfl

theorem run_pass_progress (g : SimpleBig2) (n : Nat)
    (hinv : GameInv g) (hcard : g.last_played_card = none)
    (hall : g.all_has_card = true) :
    ∃ g2 n2, run_turns g n [0, 1, 2, 3] = .ok (g2, n2) ∧ GameInv g2 ∧
      totalCards g2 < totalCards g ∧
      n2 + totalCards g2 = n + totalCards g := by
  have hlen0 : 0 < g.players.length := by
    rw [hinv.nplayers]
    omega
  have hip0 : g.players[0]? = some g.players[0] := List.getElem?_eq_getElem hlen0
  set p0 := g.players[0] with hp0def
  have hp0mem : p0 ∈ g.players := List.getElem_mem hlen0
  rcases hinv.decks p0 hp0mem with ⟨d0, hd0⟩
  have hres0 : g.reset_last_played_card_if_all_players_passed 0 = g :=
    reset_self_of_card_none hcard 0
  have hth0 : playThreshold
      (g.reset_last_played_card_if_all_players_passed 0).last_played_card = 0 := by
    rw [hres0, hcard]
    rfl
  rcases next_turn_inv g 0 hinv (by omega) with ⟨g1, b, hnt, hinv1, _, htrue, hfalse⟩
  rcases hsm0 : d0.get_smallest_card 0 with _ | c
  · -- index 0 passes: its whole hand is the ordinal-0 card, so index 1 plays
    have hpass0 : p0.play
        (g.reset_last_played_card_if_all_players_passed 0).last_played_card =
        .ok (none, p0) := by
      apply play_pass hd0
      rw [hth0]
      exact hsm0
    have hnt0 : g.next_turn 0 = .ok (g, false) := by
      have h2 := next_turn_pass_eq g 0 p0 hip0 hpass0
      rw [hres0] at h2
      exact h2
    have hall0 : ∀ c2 ∈ d0.cards, c2 = threeDia := by
      intro c2 hc2
      have hle0 := get_smallest_card_none hsm0 c2 hc2
      have hval := hinv.valid p0 hp0mem c2 (by rw [handOf_some hd0]; exact hc2)
      exact zero_card_unique c2 hval (by omega)
    have hne0 : 0 < d0.cards.length := hand_nonempty_of_all hall hp0mem hd0
    have h3mem : threeDia ∈ handOf p0 := by
      rw [handOf_some hd0]
      rcases hcl : d0.cards with _ | ⟨c2, cs⟩
      · rw [hcl] at hne0
        simp at hne0
      · have he := hall0 c2 (by rw [hcl]; exact List.mem_cons_self c2 cs)
        rw [← he]
        exact List.mem_cons_self c2 cs
    have hlen1 : 1 < g.players.length := by
      rw [hinv.nplayers]
      omega
    have hip1 : g.players[1]? = some g.players[1] := List.getElem?_eq_getElem hlen1
    set p1 := g.players[1] with hp1def
    have hp1mem : p1 ∈ g.players := List.getElem_mem hlen1
    rcases hinv.decks p1 hp1mem with ⟨d1, hd1⟩
    have hdisj01 : ∀ c2 ∈ handOf p0, c2 ∉ handOf p1 :=
      List.pairwise_iff_getElem.mp hinv.disj 0 1 hlen0 hlen1 (by omega)
    have hne1 : 0 < d1.cards.length := hand_nonempty_of_all hall hp1mem hd1
    have hpos1 : ∃ c2 ∈ d1.cards, 0 < c2.sort_index := by
      rcases hcl : d1.cards with _ | ⟨c2, cs⟩
      · rw [hcl] at hne1
        simp at hne1
      · refine ⟨c2, List.mem_cons_self c2 cs, ?_⟩
        have hmem2 : c2 ∈ handOf p1 := by
          rw [handOf_some hd1, hcl]
          exact List.mem_cons_self c2 cs
        have hne3 : c2 ≠ threeDia := by
          intro he
          exact hdisj01 threeDia h3mem (he ▸ hmem2)
        have hval := hinv.valid p1 hp1mem c2 hmem2
        by_contra hz
        exact hne3 (zero_card_unique c2 hval (by omega))
    rcases hpos1 with ⟨c2, hc2mem, hc2pos⟩
    rcases get_smallest_card_isSome hc2mem hc2pos with ⟨c3, hsm1⟩
    have hres1 : g.reset_last_played_card_if_all_players_passed 1 = g :=
      reset_self_of_card_none hcard 1
    have hplay1 : p1.play
        (g.reset_last_played_card_if_all_players_passed 1).last_played_card =
        .ok (some c3, { p1 with deck := some ⟨d1.cards.erase c3⟩ }) := by
      apply play_play hd1
      rw [hres1, hcard]
      exact hsm1
    rcases next_turn_inv g 1 hinv (by omega) with
      ⟨g1b, b1, hnt1, hinv1b, _, htrue1, hfalse1⟩
    have hnt1b := next_turn_play_eq g 1 p1 c3 _ hip1 hplay1
    rw [hnt1] at hnt1b
    cases hnt1b
    rcases htrue1 rfl with ⟨hT1, _, _⟩
    rcases run_turns_inv [2, 3] _ (n + 1) hinv1b (by decide) with
      ⟨g2, n2, hrun23, hinv2, hle2, hacc2, _⟩
    refine ⟨g2, n2, ?_, hinv2, by omega, by omega⟩
    rw [run_turns_cons_false g n 0 [1, 2, 3] g hnt0,
        run_turns_cons_true g n 1 [2, 3] _ hnt1]
    exact hrun23
  · -- index 0 plays
    have hplay0 : p0.play
        (g.reset_last_played_card_if_all_players_passed 0).last_played_card =
        .ok (some c, { p0 with deck := some ⟨d0.cards.erase c⟩ }) := by
      apply play_play hd0
      rw [hth0]
      exact hsm0
    have hnt0b := next_turn_play_eq g 0 p0 c _ hip0 hplay0
    rw [hnt] at hnt0b
    cases hnt0b
    rcases htrue rfl with ⟨hT1, _, _⟩
    rcases run_turns_inv [1, 2, 3] _ (n + 1) hinv1 (by decide) with
      ⟨g2, n2, hrun123, hinv2, hle2, hacc2, _⟩
    refine ⟨g2, n2, ?_, hinv2, by omega, by omega⟩
    rw [run_turns_cons_true g n 0 [1, 2, 3] _ hnt]
    exact hrun123

theorem start_fuel_step (fuel : Nat) (g : SimpleBig2) (n : Nat)
    (hall : g.all_has_card = true) (g1 : SimpleBig2) (n1 : Nat)
    (hrun : run_turns g n (List.range g.players.length) = .ok (g1, n1)) :
    start_fuel (fuel + 1) g n = start_fuel fuel g1 n1 := by
  have e : start_fuel (fuel + 1) g n =
      (if g.all_has_card then
        match run_turns g n (List.range g.players.length) with
        | Except.error e => Except.error e
        | Except.ok (g2, n2) => start_fuel fuel g2 n2
       else .ok (some (g, n)) : Except String (Option (SimpleBig2 × Nat))) := rfl
  rw [e, if_pos hall, hrun]

theorem start_fuel_stop (fuel : Nat) (g : SimpleBig2) (n : Nat)
    (hall : g.all_has_card = false) :
    start_fuel (fuel + 1) g n = .ok (some (g, n)) := by
  have e : start_fuel (fuel + 1) g n =
      (if g.all_has_card then
        match run_turns g n (List.range g.players.length) with
        | Except.error e => Except.error e
        | Except.ok (g2, n2) => start_fuel fuel g2 n2
       else .ok (some (g, n)) : Except String (Option (SimpleBig2 × Nat))) := rfl
  rw [e, if_neg (by rw [hall]; exact Bool.false_ne_true)]

theorem start_fuel_terminates : ∀ (fuel : Nat) (g : SimpleBig2) (n : Nat),
    GameInv g →
    2 * totalCards g + (if g.last_played_card = none then 0 else 1) < fuel →
    ∃ g2 n2, start_fuel fuel g n = .ok (some (g2, n2)) ∧
      n2 + totalCards g2 = n + totalCards g
  | 0, g, n, _, hm => absurd hm (Nat.not_lt_zero _)
  | fuel + 1, g, n, hinv, hm => by
    have hrange : List.range g.players.length = [0, 1, 2, 3] := by
      rw [hinv.nplayers]
      rfl
    by_cases hall : g.all_has_card = true
    · by_cases hcard : g.last_played_card = none
      · -- threshold absent: a full pass strictly removes a card
        rcases run_pass_progress g n hinv hcard hall with
          ⟨g1, n1, hrun, hinv1, hlt, hacc⟩
        have hm1 : 2 * totalCards g1 +
            (if g1.last_played_card = none then 0 else 1) < fuel := by
          rw [if_pos hcard] at hm
          by_cases h1 : g1.last_played_card = none
          · rw [if_pos h1]
            omega
          · rw [if_neg h1]
            omega
        rcases start_fuel_terminates fuel g1 n1 hinv1 hm1 with ⟨g2, n2, hsf, hacc2⟩
        refine ⟨g2, n2, ?_, by omega⟩
        rw [start_fuel_step fuel g n hall g1 n1 (by rw [hrange]; exact hrun)]
        exact hsf
      · -- threshold present
        rcases run_turns_inv [0, 1, 2, 3] g n hinv (by decide) with
          ⟨g1, n1, hrun, hinv1, hle, hacc, hpb⟩
        rw [if_neg hcard] at hm
        by_cases hT : totalCards g1 = totalCards g
        · -- nobody played: the card was cleared when the loop reached its owner
          rcases hpb hT with ⟨hP1, hP2, hP3⟩
          have hcard1 : g1.last_played_card = none := by
            rcases hlpp : g.last_played_player with _ | j
            · exact absurd (fun hc => (hinv.card_player hc) hlpp) (by
                intro hf
                exact hf hcard)
            · refine hP3 j ?_ hlpp
              have hj4 := hinv.lpp_lt j hlpp
              simp only [List.mem_cons, List.not_mem_nil, or_false]
              omega
          have hm1 : 2 * totalCards g1 +
              (if g1.last_played_card = none then 0 else 1) < fuel := by
            rw [if_pos hcard1, hT]
            omega
          rcases start_fuel_terminates fuel g1 n1 hinv1 hm1 with ⟨g2, n2, hsf, hacc2⟩
          refine ⟨g2, n2, ?_, by omega⟩
          rw [start_fuel_step fuel g n hall g1 n1 (by rw [hrange]; exact hrun)]
          exact hsf
        · -- somebody played
          have hlt : totalCards g1 < totalCards g := lt_of_le_of_ne hle hT
          have hm1 : 2 * totalCards g1 +
              (if g1.last_played_card = none then 0 else 1) < fuel := by
            by_cases h1 : g1.last_played_card = none
            · rw [if_pos h1]
              omega
            · rw [if_neg h1]
              omega
          rcases start_fuel_terminates fuel g1 n1 hinv1 hm1 with ⟨g2, n2, hsf, hacc2⟩
          refine ⟨g2, n2, ?_, by omega⟩
          rw [start_fuel_step fuel g n hall g1 n1 (by rw [hrange]; exact hrun)]
          exact hsf
    · -- some hand is empty: the loop stops
      have hallf : g.all_has_card = false := by
        cases hb : g.all_has_card
        · rfl
        · exact absurd hb hall
      exact ⟨g, n, start_fuel_stop fuel g n hallf, rfl⟩

theorem setup_establishes_inv (g0 : SimpleBig2) (shuffled : List Card)
    (g : SimpleBig2)
    (h4 : g0.players.length = 4)
    (hlc : g0.last_played_card = none) (hlp : g0.last_played_player = none)
    (hs : List.Perm shuffled fullDeckCards)
    (hsetup : g0.setup shuffled = .ok g) :
    GameInv g ∧ totalCards g = 48 ∧ g.last_played_card = none := by
  rcases setup_eq g0 shuffled h4 hs with ⟨g2, hsetup2, hperm, _, hcard2, hlpp2⟩
  rw [hsetup] at hsetup2
  cases hsetup2
  have hlen52 : shuffled.length = 52 := by rw [hs.length_eq, fullDeck_length]
  have hle : MAX_CARDS_PER_PLAYER * g0.players.length ≤ shuffled.length := by
    rw [h4, hlen52]
    norm_num [MAX_CARDS_PER_PLAYER]
  have hsnd : shuffled.Nodup := hs.nodup_iff.mpr fullDeck_nodup
  have hmemchunk : ∀ q ∈ g.players, q ∈ chunk_deal g0.players shuffled :=
    fun q hq => hperm.mem_iff.mp hq
  have hhand : ∀ q ∈ g.players, ∃ hand : List Card,
      q.deck = some ⟨List.insertionSort cardLe hand⟩ ∧
      hand.length = MAX_CARDS_PER_PLAYER ∧ hand.Sublist shuffled :=
    fun q hq => chunk_deal_mem g0.players shuffled hle q (hmemchunk q hq)
  have hhandof : ∀ q ∈ g.players, (handOf q).length = 12 ∧ (handOf q).Nodup ∧
      ∀ c ∈ handOf q, c ∈ fullDeckCards := by
    intro q hq
    rcases hhand q hq with ⟨hand, hdeck, hlenh, hsub⟩
    have hperm2 : List.Perm (handOf q) hand := by
      rw [handOf_some hdeck]
      exact List.perm_insertionSort cardLe hand
    refine ⟨?_, ?_, ?_⟩
    · rw [hperm2.length_eq, hlenh]
      rfl
    · exact hperm2.nodup_iff.mpr (List.Nodup.sublist hsub hsnd)
    · intro c hc
      exact hs.subset (hsub.subset (hperm2.subset hc))
  refine ⟨⟨?_, ?_, ?_, ?_, ?_, ?_, ?_⟩, ?_, ?_⟩
  · rw [hperm.length_eq, chunk_deal_length, h4]
  · intro q hq
    rcases hhand q hq with ⟨hand, hdeck, _, _⟩
    exact ⟨_, hdeck⟩
  · exact fun q hq => (hhandof q hq).2.1
  · exact fun q hq => (hhandof q hq).2.2
  · exact (List.Perm.pairwise_iff
      (fun hxy c hc hc2 => hxy c hc2 hc) hperm).mpr
      (chunk_deal_disjoint g0.players shuffled hsnd)
  · intro j hj
    rw [hlpp2, hlp] at hj
    cases hj
  · intro hc
    rw [hcard2, hlc] at hc
    exact absurd rfl hc
  · unfold totalCards
    have hrepl : g.players.map (fun q => (handOf q).length) =
        List.replicate 4 12 := by
      rw [List.eq_replicate_iff]
      constructor
      · rw [List.length_map, hperm.length_eq, chunk_deal_length, h4]
      · intro b hb
        rcases List.mem_map.mp hb with ⟨q, hq, hqb⟩
        rw [← hqb]
        exact (hhandof q hq).1
    rw [hrepl, List.sum_replicate]
    rfl
  · rw [hcard2, hlc]

/-- C7: from the state reached by a successful setup of a fresh 4-player
game, with any permutation of the full deck as the shuffle result, the
start loop terminates (here within a fuel of 100 passes of the while-loop)
and performs at most 48 successful card plays in total. -/
theorem C7_start_terminates (g0 : SimpleBig2) (shuffled : List Card)
    (g : SimpleBig2)
    (h4 : g0.players.length = 4)
    (hlc : g0.last_played_card = none) (hlp : g0.last_played_player = none)
    (hs : List.Perm shuffled fullDeckCards)
    (hsetup : g0.setup shuffled = .ok g) :
    ∃ g2 plays, start_fuel 100 g 0 = .ok (some (g2, plays)) ∧ plays ≤ 48 := by
  rcases setup_establishes_inv g0 shuffled g h4 hlc hlp hs hsetup with
    ⟨hinv, hT, hcard⟩
  have hm : 2 * totalCards g +
      (if g.last_played_card = none then 0 else 1) < 100 := by
    rw [if_pos hcard, hT]
    omega
  rcases start_fuel_terminates 100 g 0 hinv hm with ⟨g2, n2, hsf, hacc⟩
  exact ⟨g2, n2, hsf, by omega⟩

/-- The players of the fresh game used in the C7 witness. -/
def c7_players : List Player :=
  [⟨"Adam", none⟩, ⟨"Ben", none⟩, ⟨"Charlie", none⟩, ⟨"Derek", none⟩]

/-- The game state reached by setup of the fresh 4-player game when the
shuffle leaves the deck in its initial order. -/
def c7_game : SimpleBig2 :=
  ⟨⟨fullDeckCards.drop 48⟩, chunk_deal c7_players fullDeckCards, none, none⟩

theorem C7_start_terminates_witness :
    (SimpleBig2.init c7_players).setup fullDeckCards = .ok c7_game ∧
    ∃ g2 plays, start_fuel 100 c7_game 0 = .ok (some (g2, plays)) ∧ plays ≤ 48 :=
  ⟨rfl, C7_start_terminates (SimpleBig2.init c7_players) fullDeckCards c7_game
    rfl rfl rfl (List.Perm.refl _) rfl⟩
